import Mathlib

/-!
Verification of the blockchain synchronization core of the ucoin repository
(file `src/unnamed/part_000`, the `Synchroniser` module).

The definitions below are a shallow embedding of the relevant parts of the
source.  JavaScript numbers that hold block heights are modelled as `Int`
(the local height may be `-1`), timestamps as `Int` milliseconds, and the
floating-point `speed` value as `ℚ`.  Each definition's doc comment points
to the source lines it embeds.
-/

namespace UcoinSync

/-- `intRangeGo n a = [a, a+1, …, a+n-1]`: auxiliary for `intRange`. -/
def intRangeGo : Nat → Int → List Int
  | 0, _ => []
  | n + 1, x => x :: intRangeGo n (x + 1)

/-- The list of integers from `a` to `b` inclusive (empty when `b < a`).
Used to state which block numbers a range covers. -/
def intRange (a b : Int) : List Int :=
  intRangeGo (b + 1 - a).toNat a

/-- Chunk planning loop, source lines 126-129:
`for (let i = localNumber + 1; i <= remoteNumber; i = i + chunkLen)
   chunks.push([i, Math.min(i + chunkLen - 1, remoteNumber)]);`
The `fuel` argument bounds the number of iterations; with `1 ≤ C` a fuel of
`(R + 1 - i).toNat` is sufficient, so `chunks` below is exactly the loop. -/
def chunksAux : Nat → Int → Int → Int → List (Int × Int)
  | 0, _, _, _ => []
  | fuel + 1, i, r, c =>
    if i ≤ r then (i, min (i + c - 1) r) :: chunksAux fuel (i + c) r c else []

/-- The chunk list the sync plans for local height `L`, remote target `R`
and chunk width `C` (source lines 126-129). -/
def chunks (L R C : Int) : List (Int × Int) :=
  chunksAux (R + 1 - (L + 1)).toNat (L + 1) R C

theorem intRangeGo_succ (n : Nat) (x : Int) :
    intRangeGo (n + 1) x = x :: intRangeGo n (x + 1) := rfl

theorem mem_intRangeGo {y : Int} : ∀ {n : Nat} {x : Int},
    y ∈ intRangeGo n x → x ≤ y ∧ y ≤ x + n - 1 := by
  intro n
  induction n with
  | zero => intro x h; simp [intRangeGo] at h
  | succ m ih =>
    intro x h
    rw [intRangeGo_succ] at h
    rcases List.mem_cons.mp h with h | h
    · subst h; constructor
      · exact le_refl y
      · have : (0 : Int) ≤ m := Int.ofNat_nonneg m
        push_cast
        omega
    · have := ih h
      push_cast at this ⊢
      omega

theorem intRangeGo_pairwise_lt : ∀ (n : Nat) (x : Int),
    (intRangeGo n x).Pairwise (· < ·) := by
  intro n
  induction n with
  | zero => intro x; simp [intRangeGo]
  | succ m ih =>
    intro x
    rw [intRangeGo_succ]
    refine List.pairwise_cons.mpr ⟨?_, ih (x + 1)⟩
    intro y hy
    have := mem_intRangeGo hy
    omega

/-- The numbers from `a` to `b` are strictly increasing, hence duplicate-free. -/
theorem intRange_pairwise_lt (a b : Int) : (intRange a b).Pairwise (· < ·) :=
  intRangeGo_pairwise_lt _ a

theorem intRange_nil {a b : Int} (h : b < a) : intRange a b = [] := by
  unfold intRange
  have : (b + 1 - a).toNat = 0 := by omega
  rw [this]
  rfl

theorem intRangeGo_append (n₁ n₂ : Nat) (x : Int) :
    intRangeGo (n₁ + n₂) x = intRangeGo n₁ x ++ intRangeGo n₂ (x + n₁) := by
  induction n₁ generalizing x with
  | zero => simp [intRangeGo]
  | succ m ih =>
    have hn : m + 1 + n₂ = (m + n₂) + 1 := by omega
    rw [hn, intRangeGo_succ, intRangeGo_succ, ih (x + 1)]
    have : x + 1 + (m : Int) = x + (m + 1 : Nat) := by push_cast; omega
    rw [List.cons_append, this]

/-- Splitting a closed integer range at `m`. -/
theorem intRange_append {a m b : Int} (h₁ : a - 1 ≤ m) (h₂ : m ≤ b) :
    intRange a b = intRange a m ++ intRange (m + 1) b := by
  unfold intRange
  have hsum : (b + 1 - a).toNat = (m + 1 - a).toNat + (b + 1 - (m + 1)).toNat := by
    omega
  rw [hsum, intRangeGo_append]
  congr 1
  have : ((m + 1 - a).toNat : Int) = m + 1 - a := Int.toNat_of_nonneg (by omega)
  rw [this]
  ring_nf

theorem chunksAux_spec : ∀ (fuel : Nat) (i R C : Int), 1 ≤ C →
    (R + 1 - i).toNat ≤ fuel →
    ((chunksAux fuel i R C).flatMap (fun c => intRange c.1 c.2) = intRange i R ∧
      ∀ c ∈ chunksAux fuel i R C, c.1 ≤ c.2 ∧ c.2 = min (c.1 + C - 1) R) := by
  intro fuel
  induction fuel with
  | zero =>
    intro i R C _ hfuel
    have : R < i := by omega
    simp [chunksAux, intRange_nil this]
  | succ m ih =>
    intro i R C hC hfuel
    by_cases hiR : i ≤ R
    · have hrec := ih (i + C) R C hC (by omega)
      have hsplit : intRange i R =
          intRange i (min (i + C - 1) R) ++ intRange (min (i + C - 1) R + 1) R := by
        apply intRange_append <;> omega
      have htail : intRange (min (i + C - 1) R + 1) R = intRange (i + C) R := by
        by_cases hm : i + C - 1 ≤ R
        · rw [min_eq_left hm]
          congr 1
          omega
        · rw [min_eq_right (by omega)]
          rw [intRange_nil (by omega), intRange_nil (by omega)]
      constructor
      · rw [show chunksAux (m + 1) i R C =
            (i, min (i + C - 1) R) :: chunksAux m (i + C) R C by
              simp [chunksAux, hiR]]
        rw [List.flatMap_cons, hrec.1, hsplit, htail]
      · intro c hc
        rw [show chunksAux (m + 1) i R C =
            (i, min (i + C - 1) R) :: chunksAux m (i + C) R C by
              simp [chunksAux, hiR]] at hc
        rcases List.mem_cons.mp hc with h | h
        · subst h
          refine ⟨?_, rfl⟩
          simp only [le_min_iff]
          omega
        · exact hrec.2 c h
    · have : chunksAux (m + 1) i R C = [] := by simp [chunksAux, hiR]
      rw [this]
      simp [intRange_nil (by omega : R < i)]

/-- Core property of the planner: the chunk list tiles `(L, R]`. -/
theorem chunks_tile (L R C : Int) (hC : 1 ≤ C) :
    ((chunks L R C).flatMap (fun c => intRange c.1 c.2) = intRange (L + 1) R ∧
      ∀ c ∈ chunks L R C, c.1 ≤ c.2 ∧ c.2 = min (c.1 + C - 1) R) :=
  chunksAux_spec _ _ _ _ hC (le_refl _)

theorem chunks_nil {L R C : Int} (h : R ≤ L) : chunks L R C = [] := by
  unfold chunks
  have : (R + 1 - (L + 1)).toNat = 0 := by omega
  rw [this]
  rfl

/-- C4: For all integers `L ≥ -1`, `R > L`, `C ≥ 1`, the planner's chunks
`[L+1, min(L+C, R)], [L+C+1, min(L+2C, R)], …` tile the half-open interval
`(L, R]` exactly — their concatenated covered ranges equal the
duplicate-free ascending list `L+1, …, R` — each chunk's first bound is at
most its last bound, and when `R ≤ L` the chunk list is empty. -/
theorem planner_tiles_interval (L R C : Int) (hC : 1 ≤ C) :
    ((chunks L R C).flatMap (fun c => intRange c.1 c.2) = intRange (L + 1) R) ∧
    (∀ c ∈ chunks L R C, c.1 ≤ c.2 ∧ c.2 = min (c.1 + C - 1) R) ∧
    (intRange (L + 1) R).Pairwise (· < ·) ∧
    (R ≤ L → chunks L R C = []) := by
  obtain ⟨h1, h2⟩ := chunks_tile L R C hC
  exact ⟨h1, h2, intRange_pairwise_lt _ _, fun h => chunks_nil h⟩

/-- Witness for C4 at `L = -1`, `R = 5`, `C = 2`
(chunks `[(0,1),(2,3),(4,5)]`). -/
theorem planner_tiles_interval_witness :
    ((1 : Int) ≤ 2) ∧
    (((chunks (-1) 5 2).flatMap (fun c => intRange c.1 c.2) = intRange 0 5) ∧
      (∀ c ∈ chunks (-1) 5 2, c.1 ≤ c.2 ∧ c.2 = min (c.1 + 2 - 1) 5) ∧
      (intRange 0 5).Pairwise (· < ·) ∧
      ((5 : Int) ≤ -1 → chunks (-1) 5 2 = [])) :=
  ⟨by decide, planner_tiles_interval (-1) 5 2 (by decide)⟩

/-- A downloaded block, as far as the sync pipeline inspects it: only its
`number` field is consulted (for sorting and progress); everything else is
passed through opaquely. -/
structure SBlock where
  number : Int
  deriving DecidableEq

/-- The ordering key of `_.sortBy(blocks, 'number')` (source line 162). -/
def blockLe (a b : SBlock) : Prop := a.number ≤ b.number

instance : DecidableRel blockLe := fun a b => Int.decLe a.number b.number

instance : IsTotal SBlock blockLe := ⟨fun a b => Int.le_total a.number b.number⟩

instance : IsTrans SBlock blockLe :=
  ⟨fun _ _ _ hab hbc => Int.le_trans hab hbc⟩

/-- `blocks = _.sortBy(blocks, 'number')` (source line 162): a sort of the
chunk's blocks by ascending `number`, modelled by insertion sort. -/
def sortByNumber (l : List SBlock) : List SBlock :=
  List.insertionSort blockLe l

/-- The per-chunk download call (source line 143):
`node.blockchain.blocks(chunk[1] - chunk[0] + 1, chunk[0])`, abstracted as a
function `fetch count from`, followed by the sort at line 162. -/
def chunkBlocksSorted (fetch : Int → Int → List SBlock) (c : Int × Int) :
    List SBlock :=
  sortByNumber (fetch (c.2 - c.1 + 1) c.1)

/-- Cautious mode (source lines 163-167): for each chunk in order, every
sorted block is submitted individually via `BlockchainService.submitBlock`.
This is the full list of those submissions, in submission order. -/
def cautiousSubmissions (fetch : Int → Int → List SBlock) (L R C : Int) :
    List SBlock :=
  ((chunks L R C).map (chunkBlocksSorted fetch)).flatten

/-- Fast mode (source lines 168-170): for each chunk in order, the whole
sorted block array is passed to `BlockchainService.saveBlocksInMainBranch`.
This is the list of those arrays, in call order. -/
def fastSaveArrays (fetch : Int → Int → List SBlock) (L R C : Int) :
    List (List SBlock) :=
  (chunks L R C).map (chunkBlocksSorted fetch)

theorem sortByNumber_perm (l : List SBlock) : (sortByNumber l).Perm l :=
  List.perm_insertionSort blockLe l

theorem sortByNumber_sorted (l : List SBlock) :
    (sortByNumber l).Pairwise blockLe :=
  List.sorted_insertionSort blockLe l

/-- If a chunk download returns exactly the blocks numbered `a..b` in some
order, the sorted chunk's numbers are exactly the ascending list `a..b`. -/
theorem sortByNumber_map_number {l : List SBlock} {a b : Int}
    (h : (l.map SBlock.number).Perm (intRange a b)) :
    (sortByNumber l).map SBlock.number = intRange a b := by
  apply List.eq_of_perm_of_sorted (r := (· ≤ · : Int → Int → Prop))
  · exact (List.Perm.map SBlock.number (sortByNumber_perm l)).trans h
  · exact List.pairwise_map.mpr (sortByNumber_sorted l)
  · exact (intRange_pairwise_lt a b).imp (fun h => le_of_lt h)

/-- C1: for every sync whose remote `blocks(count, from)` RPC returns, for
each planned chunk, exactly the `count` blocks numbered from `from` in some
order, the block submissions delivered to the ledger — the individual
`submitBlock` calls in cautious mode, equally the concatenation of the
arrays passed to `saveBlocksInMainBranch` in fast mode — have numbers
exactly `L+1, …, R`, in strictly ascending order with no duplicates. -/
theorem sync_submissions_cover_range (L R C : Int)
    (fetch : Int → Int → List SBlock) (hC : 1 ≤ C)
    (hfetch : ∀ c ∈ chunks L R C,
      ((fetch (c.2 - c.1 + 1) c.1).map SBlock.number).Perm (intRange c.1 c.2)) :
    (cautiousSubmissions fetch L R C).map SBlock.number = intRange (L + 1) R ∧
    ((fastSaveArrays fetch L R C).flatten).map SBlock.number
      = intRange (L + 1) R ∧
    ((cautiousSubmissions fetch L R C).map SBlock.number).Pairwise (· < ·) := by
  have hmain : (cautiousSubmissions fetch L R C).map SBlock.number
      = intRange (L + 1) R := by
    unfold cautiousSubmissions
    rw [List.map_flatten, List.map_map]
    have hpt := (chunks_tile L R C hC).1
    rw [List.flatMap_def] at hpt
    rw [← hpt]
    congr 1
    apply List.map_congr_left
    intro c hc
    exact sortByNumber_map_number (hfetch c hc)
  refine ⟨hmain, hmain, ?_⟩
  rw [hmain]
  exact intRange_pairwise_lt _ _

/-- A concrete fetch function for the C1 witness: returns the requested
range of block numbers in descending order (so the sort is exercised). -/
def revFetch (count from_ : Int) : List SBlock :=
  ((intRange from_ (from_ + count - 1)).map SBlock.mk).reverse

/-- Witness for C1 at `L = 0`, `R = 5`, `C = 2`, with a remote that returns
each chunk's blocks in reverse order. -/
theorem sync_submissions_cover_range_witness :
    ((1 : Int) ≤ 2) ∧
    (∀ c ∈ chunks 0 5 2,
      ((revFetch (c.2 - c.1 + 1) c.1).map SBlock.number).Perm
        (intRange c.1 c.2)) ∧
    ((cautiousSubmissions revFetch 0 5 2).map SBlock.number = intRange 1 5 ∧
      ((fastSaveArrays revFetch 0 5 2).flatten).map SBlock.number
        = intRange 1 5 ∧
      ((cautiousSubmissions revFetch 0 5 2).map SBlock.number).Pairwise
        (· < ·)) :=
  ⟨by decide, by decide,
    sync_submissions_cover_range 0 5 2 revFetch (by decide) (by decide)⟩

/-- JavaScript truthiness of an optional string: `undefined` and `""` are
falsy (used for `tx.comment ? … : …` at source lines 267 and 271-272). -/
def strTruthy : Option String → Bool
  | none => false
  | some s => s ≠ ""

/-- JavaScript `v || d` for an optional number: `undefined` and `0` are
falsy (used for `tx.locktime || 0` at line 267 and `to || rCurrent.number`
at line 110). -/
def jsOr (v : Option Int) (d : Int) : Int :=
  match v with
  | none => d
  | some x => if x = 0 then d else x

/-- JavaScript `Array.prototype.join(sep)`. -/
def jsJoin (sep : String) : List String → String
  | [] => ""
  | [a] => a
  | a :: b :: t => a ++ sep ++ jsJoin sep (b :: t)

/-- A transaction as the cautious applier sees it (source lines 266-277).
Field values present before rawification are arbitrary; `version`,
`currency`, `issuers`, `hash` and `raw` are overwritten. -/
structure Tx where
  signatories : List String
  inputs : List String
  outputs : List String
  signatures : List String
  comment : Option String
  locktime : Option Int
  version : Int
  currency : String
  issuers : List String
  hash : String
  raw : String
  deriving DecidableEq

/-- Modelled from the spec: `rawer.getTransaction` (module `../lib/rawer`,
not under `src/`) re-serializes the transaction; per spec §6 the byte
sequence hashed is the transaction's canonical serialized form, i.e. the
`raw` that lines 267-273 just rebuilt. -/
def rawerGetTransaction (tx : Tx) : String := tx.raw

/-- Source lines 266-277: rebuild `tx.raw`, stamp `version` and `currency`,
copy `signatories` into `issuers`, and set
`hash = ("" + hashf(rawer.getTransaction(tx))).toUpperCase()`. -/
def rawifyTx (docVersion : Int) (currency : String) (hashf : String → String)
    (tx : Tx) : Tx :=
  let raw := jsJoin ":" ["TX", toString docVersion,
      toString tx.signatories.length, toString tx.inputs.length,
      toString tx.outputs.length, if strTruthy tx.comment then "1" else "0",
      toString (jsOr tx.locktime 0)] ++ "\n"
  let raw := raw ++ jsJoin "\n" tx.signatories ++ "\n"
  let raw := raw ++ jsJoin "\n" tx.inputs ++ "\n"
  let raw := raw ++ jsJoin "\n" tx.outputs ++ "\n"
  let raw := raw ++
    (if strTruthy tx.comment then tx.comment.getD "" ++ "\n" else "")
  let raw := raw ++ jsJoin "\n" tx.signatures ++ "\n"
  let tx1 := { tx with
    raw := raw
    version := docVersion
    currency := currency
    issuers := tx.signatories }
  { tx1 with hash := (hashf (rawerGetTransaction tx1)).toUpper }

/-- The header line of the claimed canonical form:
`TX:<doc_version>:<N_sig>:<N_in>:<N_out>:<has_comment 0|1>:<locktime>`. -/
def txHeader (docVersion : Int) (tx : Tx) : String :=
  "TX:" ++ toString docVersion ++ ":" ++ toString tx.signatories.length
    ++ ":" ++ toString tx.inputs.length ++ ":" ++ toString tx.outputs.length
    ++ ":" ++ (if strTruthy tx.comment then "1" else "0")
    ++ ":" ++ toString (jsOr tx.locktime 0)

/-- One newline-terminated line per list element (and nothing at all for an
empty list). -/
def lineConcat : List String → String
  | [] => ""
  | a :: t => a ++ "\n" ++ lineConcat t

/-- The canonical serialized form exactly as claim C2 words it: the header
line, then each signatory, each input, each output, the comment if present,
and each signature, each on its own newline-terminated line. -/
def claimedTxRaw (docVersion : Int) (tx : Tx) : String :=
  txHeader docVersion tx ++ "\n"
    ++ lineConcat tx.signatories
    ++ lineConcat tx.inputs
    ++ lineConcat tx.outputs
    ++ (if strTruthy tx.comment then tx.comment.getD "" ++ "\n" else "")
    ++ lineConcat tx.signatures

/-- A group's contribution to the canonical form as the code builds it: its
elements joined by newlines plus a terminating newline, which for a
non-empty group is one newline-terminated line per element, and for an
empty group is a single empty line. -/
def lineify : List String → String
  | [] => "\n"
  | a :: t => lineConcat (a :: t)

/-- The canonical serialized form with the empty-group proviso (amended
claim C2). -/
def amendedTxRaw (docVersion : Int) (tx : Tx) : String :=
  txHeader docVersion tx ++ "\n"
    ++ lineify tx.signatories
    ++ lineify tx.inputs
    ++ lineify tx.outputs
    ++ (if strTruthy tx.comment then tx.comment.getD "" ++ "\n" else "")
    ++ lineify tx.signatures

theorem jsJoin_newline : ∀ l : List String, jsJoin "\n" l ++ "\n" = lineify l
  | [] => by simp [jsJoin, lineify]
  | [a] => by simp [jsJoin, lineify, lineConcat]
  | a :: b :: t => by
    have ih := jsJoin_newline (b :: t)
    simp only [lineify] at ih
    simp only [jsJoin, lineify, lineConcat]
    rw [String.append_assoc, ih]
    simp [lineConcat]

/-- A concrete transaction with an empty `inputs` group, used to separate
the code's serialization from the claim's wording. -/
def txNoInputs : Tx :=
  { signatories := ["SIG1"], inputs := [], outputs := ["OUT1"],
    signatures := ["AAA"], comment := none, locktime := none,
    version := 0, currency := "", issuers := [], hash := "", raw := "" }

/-- Counterexample to C2: for a transaction with no inputs, the serialized
form built by the code (source line 269 appends `''.join('\n') + '\n'`,
i.e. an empty line) differs from the form stated in the claim, in which an
empty group contributes no line at all. -/
theorem rawifyTx_differs_from_claimed_form :
    (rawifyTx 1 "meta_brouzouf" (fun s => s) txNoInputs).raw
      ≠ claimedTxRaw 1 txNoInputs := by decide

/-- C2 (amended): in cautious mode each transaction's canonical serialized
form is the header line `TX:<doc_version>:<N_sig>:<N_in>:<N_out>:
<has_comment 0|1>:<locktime>` followed by the signatory, input, output,
optional comment, and signature groups, where each non-empty group
contributes one newline-terminated line per element and each empty group
contributes a single empty line; the transaction is stamped with the
configured document version and currency, its signatories are copied into
`issuers`, and its hash is the uppercased result of the hash function
applied to this canonical byte sequence. -/
theorem rawifyTx_spec (docVersion : Int) (currency : String)
    (hashf : String → String) (tx : Tx) :
    (rawifyTx docVersion currency hashf tx).raw = amendedTxRaw docVersion tx ∧
    (rawifyTx docVersion currency hashf tx).version = docVersion ∧
    (rawifyTx docVersion currency hashf tx).currency = currency ∧
    (rawifyTx docVersion currency hashf tx).issuers = tx.signatories ∧
    (rawifyTx docVersion currency hashf tx).hash
      = (hashf ((rawifyTx docVersion currency hashf tx).raw)).toUpper := by
  refine ⟨?_, rfl, rfl, rfl, rfl⟩
  show jsJoin ":" ["TX", toString docVersion, toString tx.signatories.length,
      toString tx.inputs.length, toString tx.outputs.length,
      if strTruthy tx.comment then "1" else "0",
      toString (jsOr tx.locktime 0)] ++ "\n"
      ++ jsJoin "\n" tx.signatories ++ "\n"
      ++ jsJoin "\n" tx.inputs ++ "\n"
      ++ jsJoin "\n" tx.outputs ++ "\n"
      ++ (if strTruthy tx.comment then tx.comment.getD "" ++ "\n" else "")
      ++ jsJoin "\n" tx.signatures ++ "\n"
      = amendedTxRaw docVersion tx
  unfold amendedTxRaw txHeader
  rw [show jsJoin ":" ["TX", toString docVersion,
      toString tx.signatories.length, toString tx.inputs.length,
      toString tx.outputs.length, if strTruthy tx.comment then "1" else "0",
      toString (jsOr tx.locktime 0)]
      = "TX:" ++ toString docVersion ++ ":" ++ toString tx.signatories.length
        ++ ":" ++ toString tx.inputs.length ++ ":"
        ++ toString tx.outputs.length ++ ":"
        ++ (if strTruthy tx.comment then "1" else "0")
        ++ ":" ++ toString (jsOr tx.locktime 0) by
    simp [jsJoin, String.append_assoc]]
  rw [← jsJoin_newline tx.signatories, ← jsJoin_newline tx.inputs,
    ← jsJoin_newline tx.outputs, ← jsJoin_newline tx.signatures]
  simp [String.append_assoc]

/-- The event-stream pushes produced by running a sequence of wrapper
percentage-setter calls over the logger watcher, starting from stored value
`stored`.  Per source lines 33-38 (and identically 39-44), a call with a
defined `pct` pushes an event iff the base watcher's current value is
strictly below `pct`; per lines 427-434 (and identically 436-443), the
logger watcher then stores `pct` unconditionally, even when it is lower.
The `downloadPercent` and the `appliedPercent` stream are two independent
instances of this one recursion, over `downPct` and `appliedPct`. -/
def wrapperPushes (stored : Int) : List (Option Int) → List Int
  | [] => []
  | none :: rest => wrapperPushes stored rest
  | some p :: rest =>
    (if stored < p then [p] else []) ++ wrapperPushes p rest

/-- Boolean test that a list of integers is non-decreasing. -/
def nonDecreasing : List Int → Bool
  | [] => true
  | [_] => true
  | a :: b :: t => a ≤ b && nonDecreasing (b :: t)

theorem nonDecreasing_iff_chain : ∀ l : List Int,
    nonDecreasing l = true ↔ List.Chain' (· ≤ ·) l
  | [] => by simp [nonDecreasing]
  | [a] => by simp [nonDecreasing]
  | a :: b :: t => by
    rw [List.chain'_cons, ← nonDecreasing_iff_chain (b :: t)]
    simp [nonDecreasing]

/-- Counterexample to C3: calling the wrapped logger-watcher setter with
50, then 10, then 20 pushes the events `[50, 20]` on the stream — the
lower call 10 pushes nothing but overwrites the stored value, so the later
push 20 drops below the earlier push 50: the pushed sequence is not
non-decreasing. -/
theorem wrapperPushes_not_monotone :
    wrapperPushes 0 [some 50, some 10, some 20] = [50, 20] ∧
    nonDecreasing (wrapperPushes 0 [some 50, some 10, some 20]) = false ∧
    ¬ List.Chain' (· ≤ ·) (wrapperPushes 0 [some 50, some 10, some 20]) := by
  refine ⟨by decide, by decide, ?_⟩
  rw [show wrapperPushes 0 [some 50, some 10, some 20] = [50, 20] by decide,
    ← nonDecreasing_iff_chain]
  decide

theorem wrapperPushes_mem : ∀ (calls : List (Option Int)) (stored p : Int),
    p ∈ wrapperPushes stored calls → p ∈ calls.filterMap id := by
  intro calls
  induction calls with
  | nil => intro stored p h; simp [wrapperPushes] at h
  | cons c rest ih =>
    intro stored p h
    match c with
    | none =>
      rw [show (none :: rest).filterMap (id : Option Int → Option Int)
          = rest.filterMap id from rfl]
      exact ih stored p h
    | some v =>
      simp only [wrapperPushes, List.mem_append] at h
      rw [show (some v :: rest).filterMap (id : Option Int → Option Int)
          = v :: rest.filterMap id from rfl]
      rw [List.mem_cons]
      rcases h with h | h
      · left
        by_cases hlt : stored < v
        · simp [hlt] at h; omega
        · simp [hlt] at h
      · right; exact ih v p h

theorem wrapperPushes_chain_aux :
    ∀ (calls : List (Option Int)) (stored : Int),
      List.Chain' (· ≤ ·) (stored :: calls.filterMap id) →
      List.Chain' (· < ·) (wrapperPushes stored calls) ∧
        ∀ p ∈ wrapperPushes stored calls, stored < p := by
  intro calls
  induction calls with
  | nil => intro stored _; simp [wrapperPushes]
  | cons c rest ih =>
    intro stored hmono
    match c with
    | none =>
      rw [show (none :: rest).filterMap (id : Option Int → Option Int)
          = rest.filterMap id from rfl] at hmono
      exact ih stored hmono
    | some v =>
      rw [show (some v :: rest).filterMap (id : Option Int → Option Int)
          = v :: rest.filterMap id from rfl] at hmono
      rw [List.chain'_cons] at hmono
      obtain ⟨hsv, hmono'⟩ := hmono
      obtain ⟨hchain, hgt⟩ := ih v hmono'
      by_cases hlt : stored < v
      · have hpush : wrapperPushes stored (some v :: rest)
            = v :: wrapperPushes v rest := by simp [wrapperPushes, hlt]
        rw [hpush]
        refine ⟨List.chain'_cons'.mpr ⟨?_, hchain⟩, ?_⟩
        · intro q hq
          exact hgt q (List.mem_of_mem_head? hq)
        · intro p hp
          rcases List.mem_cons.mp hp with h | h
          · omega
          · have := hgt p h; omega
      · have heq : stored = v := le_antisymm hsv (by omega)
        have hpush : wrapperPushes stored (some v :: rest)
            = wrapperPushes v rest := by simp [wrapperPushes, hlt]
        rw [hpush]
        exact ⟨hchain, fun p hp => heq ▸ hgt p hp⟩

/-- C3 (amended): a wrapper setter call pushes an event exactly when its
value strictly exceeds the logger watcher's stored value, and the stored
value is overwritten even by lower calls; consequently, whenever the
setter's defined inputs are non-decreasing and lie within `[0, 100]` — as
they need not be during a sync — the pushed download (resp. applied)
percentages are strictly increasing and bounded by 100, but a setter call
lower than a previously set value can make a later push smaller than an
earlier one. -/
theorem wrapperPushes_monotone_of_monotone_calls
    (calls : List (Option Int))
    (hmono : nonDecreasing (calls.filterMap id) = true)
    (h0 : ∀ v ∈ calls.filterMap id, 0 ≤ v)
    (h100 : ∀ v ∈ calls.filterMap id, v ≤ 100) :
    List.Chain' (· < ·) (wrapperPushes 0 calls) ∧
      ∀ p ∈ wrapperPushes 0 calls, p ≤ 100 := by
  have hchain : List.Chain' (· ≤ ·) ((0 : Int) :: calls.filterMap id) := by
    apply List.chain'_cons'.mpr
    refine ⟨?_, (nonDecreasing_iff_chain _).mp hmono⟩
    intro q hq
    exact h0 q (List.mem_of_mem_head? hq)
  refine ⟨(wrapperPushes_chain_aux calls 0 hchain).1, ?_⟩
  intro p hp
  exact h100 p (wrapperPushes_mem calls 0 p hp)

/-- Witness for the amended C3 at the call sequence `[30, none, 30, 60]`. -/
theorem wrapperPushes_monotone_witness :
    (nonDecreasing (([some 30, none, some 30, some 60] : List (Option Int)).filterMap id)
        = true) ∧
    (∀ v ∈ ([some 30, none, some 30, some 60] : List (Option Int)).filterMap id,
        0 ≤ v) ∧
    (∀ v ∈ ([some 30, none, some 30, some 60] : List (Option Int)).filterMap id,
        v ≤ 100) ∧
    (List.Chain' (· < ·) (wrapperPushes 0 [some 30, none, some 30, some 60]) ∧
      ∀ p ∈ wrapperPushes 0 [some 30, none, some 30, some 60], p ≤ 100) :=
  ⟨by decide, by decide, by decide,
    wrapperPushes_monotone_of_monotone_calls [some 30, none, some 30, some 60]
      (by decide) (by decide) (by decide)⟩

/-- JavaScript `Math.round` on a rational: round half away from zero is
round half up for the non-negative values arising here; modelled as
`⌊q + 1/2⌋`. -/
def jsRound (q : ℚ) : Int := ⌊q + 1 / 2⌋

/-- The mutable state read and written by `incrementBlocks` (source lines
27 and 75-91): the applied-block counter, the sliding window of
chunk-completion timestamps (milliseconds), the current speed estimate, and
the `syncStart` chrono.  `appendCount` instruments how many times a
timestamp was appended to the window. -/
structure SpeedState where
  blocksApplied : Int
  times : List Int
  speed : ℚ
  syncStart : Int
  appendCount : Nat
  deriving DecidableEq

/-- The `reduce` at source lines 82-84: the sum of consecutive timestamp
differences over the window. -/
def consecDiffSum : List Int → Int
  | [] => 0
  | [_] => 0
  | a :: b :: t => (b - a) + consecDiffSum (b :: t)

/-- Source lines 75-91, `incrementBlocks(increment)` invoked with `now` as
the current clock reading: bump `blocksApplied`, evict the oldest timestamp
when the window already holds `COMPUTE_SPEED_ON_COUNT_CHUNKS = 8`, append
`now`, and recompute
`speed = (chunkLen * (times.length - 1)) / Math.round(Math.max(duration / 1000, 1))`.
The watcher update at lines 88-90 only reads this state and is modelled
separately. -/
def incrementBlocksM (chunkLen : Int) (now : Int) (increment : Int)
    (st : SpeedState) : SpeedState :=
  let times0 := if st.times.length = 8 then st.times.drop 1 else st.times
  let times := times0 ++ [now]
  let duration := consecDiffSum times
  { st with
    blocksApplied := st.blocksApplied + increment
    times := times
    speed := ((chunkLen : ℚ) * ((times.length : ℚ) - 1))
      / ((jsRound (max ((duration : ℚ) / 1000) 1) : Int) : ℚ)
    syncStart := now
    appendCount := st.appendCount + 1 }

/-- Source lines 279-283, the state effects of `applyGivenBlock`'s returned
function: `blocksApplied++` and the direct speed overwrite
`speed = blocksApplied / Math.round(Math.max((now - syncStart) / 1000, 1))`
(the watcher update at lines 281-283 only reads this state). -/
def applyGivenBlockM (now : Int) (st : SpeedState) : SpeedState :=
  { st with
    blocksApplied := st.blocksApplied + 1
    speed := ((st.blocksApplied + 1 : Int) : ℚ)
      / ((jsRound (max (((now - st.syncStart : Int) : ℚ) / 1000) 1) : Int) : ℚ) }

/-- The cautious branch of the apply loop for one chunk (source lines
163-167): for each block, `applyGivenBlock` then `incrementBlocks(1)`; the
list holds one clock reading per block. -/
def applyChunkCautiousM (chunkLen : Int) (st : SpeedState)
    (blockNows : List Int) : SpeedState :=
  blockNows.foldl (fun s now => incrementBlocksM chunkLen now 1 (applyGivenBlockM now s)) st

/-- The state at the start of a sync (source line 27):
`times = [syncStart]`, nothing applied yet. -/
def initialSpeedState (syncStart : Int) : SpeedState :=
  { blocksApplied := 0, times := [syncStart], speed := 0,
    syncStart := syncStart, appendCount := 0 }

theorem consecDiffSum_telescopes : ∀ l : List Int, l ≠ [] →
    consecDiffSum l = l.getLast?.getD 0 - l.head?.getD 0
  | [], h => absurd rfl h
  | [a], _ => by simp [consecDiffSum]
  | a :: b :: t, _ => by
    have ih := consecDiffSum_telescopes (b :: t) (by simp)
    rw [show consecDiffSum (a :: b :: t) = (b - a) + consecDiffSum (b :: t)
      from rfl, ih, List.getLast?_cons_cons]
    simp

theorem jsRound_one : jsRound 1 = 1 := by
  unfold jsRound
  norm_num

theorem jsRound_mono {a b : ℚ} (h : a ≤ b) : jsRound a ≤ jsRound b :=
  Int.floor_le_floor (by linarith)

/-- `Math.round(Math.max(x, 1))` (the code, line 85) agrees with
`max(1, round(x))` (the claim's formula). -/
theorem jsRound_max_one (q : ℚ) : jsRound (max q 1) = max 1 (jsRound q) := by
  rcases le_total q 1 with h | h
  · have hle : jsRound q ≤ 1 := by
      have := jsRound_mono h
      rwa [jsRound_one] at this
    rw [max_eq_right h, jsRound_one, max_eq_left hle]
  · have hge : 1 ≤ jsRound q := by
      have := jsRound_mono h
      rwa [jsRound_one] at this
    rw [max_eq_left h, max_eq_right hge]

/-- C6 (amended): each `incrementBlocks` invocation — which happens once
per chunk completion in fast mode but once per applied block in cautious
mode — appends exactly one timestamp to the window, evicting the oldest
when the window already holds `W = 8`, keeps the window at no more than 8
timestamps, and leaves
`speed = C * (len - 1) / max(1, round(total_span_seconds))` where `len` is
the window length and `total_span_seconds` the elapsed seconds between the
window's oldest and newest timestamps. -/
theorem incrementBlocks_spec (chunkLen now increment : Int) (st : SpeedState)
    (hne : st.times ≠ []) (hlen : st.times.length ≤ 8) :
    (incrementBlocksM chunkLen now increment st).times.length ≤ 8 ∧
    (incrementBlocksM chunkLen now increment st).appendCount
      = st.appendCount + 1 ∧
    (incrementBlocksM chunkLen now increment st).times
      = (if st.times.length = 8 then st.times.drop 1 else st.times) ++ [now] ∧
    (incrementBlocksM chunkLen now increment st).speed
      = ((chunkLen : ℚ)
            * (((incrementBlocksM chunkLen now increment st).times.length : ℚ)
              - 1))
        / ((max 1 (jsRound
            (((((incrementBlocksM chunkLen now increment st).times.getLast?.getD
                  0)
                - ((incrementBlocksM chunkLen now increment st).times.head?.getD
                  0) : Int) : ℚ) / 1000)) : Int) : ℚ) := by
  set times0 := if st.times.length = 8 then st.times.drop 1 else st.times with htimes0
  have htimes : (incrementBlocksM chunkLen now increment st).times
      = times0 ++ [now] := rfl
  refine ⟨?_, rfl, htimes, ?_⟩
  · rw [htimes, List.length_append]
    by_cases h8 : st.times.length = 8
    · rw [htimes0]
      simp [h8]
    · rw [htimes0]
      simp only [if_neg h8, List.length_cons, List.length_nil]
      omega
  · have hne' : times0 ++ [now] ≠ [] := by simp
    have hdur := consecDiffSum_telescopes (times0 ++ [now]) hne'
    have hspeed : (incrementBlocksM chunkLen now increment st).speed
        = ((chunkLen : ℚ) * (((times0 ++ [now]).length : ℚ) - 1))
          / ((jsRound (max ((consecDiffSum (times0 ++ [now]) : ℚ) / 1000) 1)
              : Int) : ℚ) := rfl
    rw [hspeed, htimes, hdur, jsRound_max_one]

/-- Running the cautious loop on one chunk of three blocks, starting from
the initial sync state: one chunk completion, three window appends. -/
theorem cautious_chunk_appends_per_block :
    (applyChunkCautiousM 500 (initialSpeedState 0) [1000, 2000, 3000]).appendCount
        = 3 ∧
    ¬ (applyChunkCautiousM 500 (initialSpeedState 0)
        [1000, 2000, 3000]).appendCount = 1 := by
  constructor
  · rfl
  · intro h
    rw [show (applyChunkCautiousM 500 (initialSpeedState 0)
        [1000, 2000, 3000]).appendCount = 3 from rfl] at h
    exact absurd h (by decide)

/-- Witness for the amended C6: one invocation on the initial window `[0]`
at `now = 1000` with chunk width 500. -/
theorem incrementBlocks_spec_witness :
    ((initialSpeedState 0).times ≠ []) ∧
    ((initialSpeedState 0).times.length ≤ 8) ∧
    ((incrementBlocksM 500 1000 1 (initialSpeedState 0)).times.length ≤ 8 ∧
      (incrementBlocksM 500 1000 1 (initialSpeedState 0)).appendCount
        = (initialSpeedState 0).appendCount + 1 ∧
      (incrementBlocksM 500 1000 1 (initialSpeedState 0)).times
        = (if (initialSpeedState 0).times.length = 8
            then (initialSpeedState 0).times.drop 1
            else (initialSpeedState 0).times) ++ [1000] ∧
      (incrementBlocksM 500 1000 1 (initialSpeedState 0)).speed
        = ((500 : ℚ)
              * (((incrementBlocksM 500 1000 1 (initialSpeedState 0)).times.length
                : ℚ) - 1))
          / ((max 1 (jsRound
              (((((incrementBlocksM 500 1000 1
                      (initialSpeedState 0)).times.getLast?.getD 0)
                  - ((incrementBlocksM 500 1000 1
                      (initialSpeedState 0)).times.head?.getD 0) : Int) : ℚ)
                / 1000)) : Int) : ℚ)) :=
  ⟨by decide, by decide, incrementBlocks_spec 500 1000 1 (initialSpeedState 0)
    (by decide) (by decide)⟩

/-- The value stored at a leaf of the remote's peers Merkle tree (source
lines 217-224): a signed peering entry.  `extra` stands for any additional
JSON fields, which the code does not copy. -/
structure LeafValue where
  version : Int
  currency : String
  pubkey : String
  endpoints : List String
  block : String
  signature : String
  extra : String
  deriving DecidableEq

/-- The entry assembled at source lines 220-224: exactly the keys
`version`, `currency`, `pubkey`, `endpoints`, `block` are copied from the
leaf's JSON value, plus its `signature`. -/
structure PeerEntry where
  version : Int
  currency : String
  pubkey : String
  endpoints : List String
  block : String
  signature : String
  deriving DecidableEq

/-- Source lines 220-224. -/
def entryFromLeaf (v : LeafValue) : PeerEntry :=
  { version := v.version, currency := v.currency, pubkey := v.pubkey,
    endpoints := v.endpoints, block := v.block, signature := v.signature }

/-- Outcome of the peer-reconciliation phase (source lines 203-232):
whether the remote's leaves list was fetched, which leaves were fetched
individually, and which entries were submitted to the local peer service,
in order. -/
structure ReconcileOutcome where
  leafListFetched : Bool
  fetchedLeaves : List String
  submittedEntries : List PeerEntry
  deriving DecidableEq

/-- Source lines 203-232: compare the local and remote Merkle roots
(`rm.root() != merkle.root()`); when they differ, fetch the remote leaf
list, keep the leaves absent from the local Merkle
(`merkle.leaves().indexOf(leaf) == -1`), and for each fetch its value and
submit the assembled entry; when they match, fetch nothing. -/
def reconcilePeers (localRoot remoteRoot : String)
    (localLeaves remoteLeaves : List String)
    (leafValue : String → LeafValue) : ReconcileOutcome :=
  if remoteRoot ≠ localRoot then
    let leavesToAdd := remoteLeaves.filter (fun leaf => ¬ leaf ∈ localLeaves)
    { leafListFetched := true
      fetchedLeaves := leavesToAdd
      submittedEntries := leavesToAdd.map (fun leaf => entryFromLeaf (leafValue leaf)) }
  else
    { leafListFetched := false, fetchedLeaves := [], submittedEntries := [] }

/-- C5: when the local Merkle root equals the remote one, neither the leaf
list nor any individual leaf is fetched and nothing is submitted; otherwise
exactly the leaves in `remote_leaves \ local_leaves` are fetched, and each
fetched leaf's peering entry — the fields `version`, `currency`, `pubkey`,
`endpoints`, `block` together with its `signature` — is submitted to the
local peer service. -/
theorem reconcilePeers_spec (localRoot remoteRoot : String)
    (localLeaves remoteLeaves : List String)
    (leafValue : String → LeafValue) :
    (localRoot = remoteRoot →
      reconcilePeers localRoot remoteRoot localLeaves remoteLeaves leafValue
        = { leafListFetched := false, fetchedLeaves := [],
            submittedEntries := [] }) ∧
    (localRoot ≠ remoteRoot →
      (∀ leaf,
        leaf ∈ (reconcilePeers localRoot remoteRoot localLeaves remoteLeaves
            leafValue).fetchedLeaves
          ↔ leaf ∈ remoteLeaves ∧ ¬ leaf ∈ localLeaves) ∧
      (reconcilePeers localRoot remoteRoot localLeaves remoteLeaves
          leafValue).submittedEntries
        = (reconcilePeers localRoot remoteRoot localLeaves remoteLeaves
            leafValue).fetchedLeaves.map
            (fun leaf => entryFromLeaf (leafValue leaf)) ∧
      (reconcilePeers localRoot remoteRoot localLeaves remoteLeaves
          leafValue).leafListFetched = true) := by
  constructor
  · intro heq
    unfold reconcilePeers
    rw [if_neg (by simp [heq])]
  · intro hne
    have hif : reconcilePeers localRoot remoteRoot localLeaves remoteLeaves
        leafValue
        = { leafListFetched := true
            fetchedLeaves :=
              remoteLeaves.filter (fun leaf => ¬ leaf ∈ localLeaves)
            submittedEntries :=
              (remoteLeaves.filter (fun leaf => ¬ leaf ∈ localLeaves)).map
                (fun leaf => entryFromLeaf (leafValue leaf)) } := by
      unfold reconcilePeers
      rw [if_pos (fun h => hne h.symm)]
    rw [hif]
    refine ⟨?_, rfl, rfl⟩
    intro leaf
    simp [List.mem_filter]

/-- Witness for C5: remote root "B" differs from local root "A"; remote
leaves `["x", "y", "z"]`, local leaves `["y"]`. -/
theorem reconcilePeers_spec_witness :
    (("A" : String) ≠ "B") ∧
    ((∀ leaf,
        leaf ∈ (reconcilePeers "A" "B" ["y"] ["x", "y", "z"]
            (fun s => ⟨2, "c", s, [], "b", "sig", "junk"⟩)).fetchedLeaves
          ↔ leaf ∈ ["x", "y", "z"] ∧ ¬ leaf ∈ ["y"]) ∧
      (reconcilePeers "A" "B" ["y"] ["x", "y", "z"]
          (fun s => ⟨2, "c", s, [], "b", "sig", "junk"⟩)).submittedEntries
        = (reconcilePeers "A" "B" ["y"] ["x", "y", "z"]
            (fun s => ⟨2, "c", s, [], "b", "sig", "junk"⟩)).fetchedLeaves.map
            (fun leaf =>
              entryFromLeaf ((fun s => ⟨2, "c", s, [], "b", "sig", "junk"⟩) leaf)) ∧
      (reconcilePeers "A" "B" ["y"] ["x", "y", "z"]
          (fun s => ⟨2, "c", s, [], "b", "sig", "junk"⟩)).leafListFetched
        = true) :=
  ⟨by decide,
    (reconcilePeers_spec "A" "B" ["y"] ["x", "y", "z"]
      (fun s => ⟨2, "c", s, [], "b", "sig", "junk"⟩)).2 (by decide)⟩

/-- The peer-service errors named by the code (`constants.ERROR.PEER`, a
module not under `src/`); all that matters is that they are distinguished
values, with `other` covering every different error. -/
inductive PeerErr where
  | alreadyRecorded
  | unknownReferenceBlock
  | other (msg : String)
  deriving DecidableEq

/-- Outcome of `syncPeer` (source lines 291-321): the status messages
written to the watcher and the overall result. -/
structure SyncPeerOutcome where
  statusWrites : List String
  result : Except PeerErr Unit

/-- Source lines 297-320: require a peering entry and signature, write a
status message when the signature check fails (without aborting), submit
the remote's peering entry, and swallow exactly `ALREADY_RECORDED` and
`UNKNOWN_REFERENCE_BLOCK` from the submission. -/
def syncPeerM (entryPresent signaturePresent : Bool) (pubkey : String)
    (signatureOK : Bool) (submitResult : Except PeerErr Unit) :
    SyncPeerOutcome :=
  if ¬ (entryPresent ∧ signaturePresent) then
    { statusWrites := [],
      result := Except.error (PeerErr.other "Requires a peering entry + signature") }
  else
    { statusWrites :=
        if ¬ signatureOK then ["Wrong signature for peer #" ++ pubkey] else []
      result :=
        match submitResult with
        | Except.ok _ => Except.ok ()
        | Except.error e =>
          if e ≠ PeerErr.alreadyRecorded ∧ e ≠ PeerErr.unknownReferenceBlock
            then Except.error e
            else Except.ok () }

/-- C8: when submitting the remote's own peering entry, an
`ALREADY_RECORDED` or `UNKNOWN_REFERENCE_BLOCK` error from the peer
service is swallowed and the sync continues; any other submission error
propagates; and a bad signature on the entry produces only a status
message, never by itself an abort. -/
theorem syncPeer_error_handling (pubkey : String) (signatureOK : Bool)
    (submitResult : Except PeerErr Unit) :
    ((submitResult = Except.error PeerErr.alreadyRecorded ∨
        submitResult = Except.error PeerErr.unknownReferenceBlock) →
      (syncPeerM true true pubkey signatureOK submitResult).result
        = Except.ok ()) ∧
    (∀ e, e ≠ PeerErr.alreadyRecorded → e ≠ PeerErr.unknownReferenceBlock →
      submitResult = Except.error e →
      (syncPeerM true true pubkey signatureOK submitResult).result
        = Except.error e) ∧
    (signatureOK = false →
      (syncPeerM true true pubkey signatureOK submitResult).statusWrites
        = ["Wrong signature for peer #" ++ pubkey] ∧
      ((submitResult = Except.ok () ∨
          submitResult = Except.error PeerErr.alreadyRecorded ∨
          submitResult = Except.error PeerErr.unknownReferenceBlock) →
        (syncPeerM true true pubkey signatureOK submitResult).result
          = Except.ok ())) := by
  refine ⟨?_, ?_, ?_⟩
  · rintro (h | h) <;> rw [h] <;> simp [syncPeerM]
  · intro e h1 h2 h3
    rw [h3]
    simp [syncPeerM, h1, h2]
  · intro hsig
    subst hsig
    refine ⟨by simp [syncPeerM], ?_⟩
    rintro (h | h | h) <;> rw [h] <;> simp [syncPeerM]

/-- The concrete submission outcome used by the C8 witness. -/
def arErr : Except PeerErr Unit := Except.error PeerErr.alreadyRecorded

/-- Witness for C8 at a concrete bad-signature, `ALREADY_RECORDED` run:
the swallowed error still yields success, and the wrong-signature status
message is written without aborting. -/
theorem syncPeer_error_handling_witness :
    (arErr = Except.error PeerErr.alreadyRecorded ∨
      arErr = Except.error PeerErr.unknownReferenceBlock) ∧
    (syncPeerM true true "PUB" false arErr).result = Except.ok () ∧
    ((false : Bool) = false) ∧
    ((syncPeerM true true "PUB" false arErr).statusWrites
        = ["Wrong signature for peer #" ++ "PUB"] ∧
      ((arErr = Except.ok () ∨
          arErr = Except.error PeerErr.alreadyRecorded ∨
          arErr = Except.error PeerErr.unknownReferenceBlock) →
        (syncPeerM true true "PUB" false arErr).result = Except.ok ())) :=
  ⟨Or.inl rfl,
    (syncPeer_error_handling "PUB" false arErr).1 (Or.inl rfl),
    rfl,
    (syncPeer_error_handling "PUB" false arErr).2.2 rfl⟩

/-- Source line 110: the effective remote target,
`Math.min(rCurrent.number, to || rCurrent.number)`, with `toArg` standing
for the sync's `to` argument. -/
def effectiveTarget (toArg : Option Int) (rNumber : Int) : Int :=
  min rNumber (jsOr toArg rNumber)

/-- Source line 227: the `eraseIfAlreadyRecorded` argument of
`PeeringService.submitP(entry, false, to === undefined)`. -/
def eraseIfAlreadyRecorded (toArg : Option Int) : Bool :=
  toArg.isNone

/-- C9: a falsy but defined `to` argument — `to = 0` — makes the effective
remote target fall back to the remote's current block number (a sync to
the chain tip), because line 110 tests the truthiness of `to`; yet the
`erase_if_already_recorded` flag sent with each missing leaf is `false`,
because line 227 tests `to === undefined`. -/
theorem falsy_to_target_vs_erase_flag (rNumber : Int) :
    effectiveTarget (some 0) rNumber = rNumber ∧
    effectiveTarget none rNumber = rNumber ∧
    eraseIfAlreadyRecorded (some 0) = false ∧
    eraseIfAlreadyRecorded none = true := by
  refine ⟨?_, ?_, rfl, rfl⟩ <;> simp [effectiveTarget, jsOr]

/-- An object pushed on the Synchroniser's event stream:
`{download: pct}`, `{applied: pct}`, `{sync: true}` or
`{sync: false, msg}`. -/
inductive Ev where
  | download (pct : Int)
  | applied (pct : Int)
  | syncTrue
  | syncFalse (msg : String)
  deriving DecidableEq

/-- The observable trace of one `sync(...)` call: the events pushed on the
stream, the chunk-download RPCs issued, the block numbers submitted to the
ledger, whether the 1-second status interval (source line 116) was started
and whether it was cleared (line 243), and the settled result of the
returned promise. -/
structure SyncTrace where
  events : List Ev
  chunkRequests : List (Int × Int)
  submittedNumbers : List Int
  timerStarted : Bool
  timerCleared : Bool
  result : Except String Unit

/-- The error message thrown at source line 107. -/
def versionErrorMsg (v : Int) : String :=
  "Could not sync with remote host. UCP version is " ++ toString v
    ++ " (Must be >= 2)"

/-- The orchestrator's control-flow skeleton (source lines 68-250).  The
remote's reported `version` and block `number`, the local height and the
`to` argument determine the plan; errors raised after the interval timer
starts — any download, apply or peer failure — are injected through
`laterError`; `priorEvents`, `priorChunks` and `priorSubmitted` stand for
whatever the pipeline pushed, requested and submitted before such a
failure; `successPushes` for the percentage events of a completed run.
The version check (lines 106-108) happens before the timer starts
(line 116); the catch block (lines 237-248) pushes `{sync:false, msg}`,
clears the interval only when it was started, and re-throws, while the
success path (lines 234-236) pushes `{sync:true}` and never clears the
interval. -/
def syncRunModel (rVersion rNumber localNumber chunkLen : Int)
    (toArg : Option Int) (fetch : Int → Int → List SBlock)
    (laterError : Option String) (priorEvents : List Ev)
    (priorChunks : List (Int × Int)) (priorSubmitted : List Int)
    (successPushes : List Ev) : SyncTrace :=
  if rVersion < 2 then
    { events := [Ev.syncFalse (versionErrorMsg rVersion)]
      chunkRequests := []
      submittedNumbers := []
      timerStarted := false
      timerCleared := false
      result := Except.error (versionErrorMsg rVersion) }
  else
    match laterError with
    | some e =>
      { events := priorEvents ++ [Ev.syncFalse e]
        chunkRequests := priorChunks
        submittedNumbers := priorSubmitted
        timerStarted := true
        timerCleared := true
        result := Except.error e }
    | none =>
      { events := successPushes ++ [Ev.syncTrue]
        chunkRequests := chunks localNumber (effectiveTarget toArg rNumber) chunkLen
        submittedNumbers :=
          (cautiousSubmissions fetch localNumber
            (effectiveTarget toArg rNumber) chunkLen).map SBlock.number
        timerStarted := true
        timerCleared := false
        result := Except.ok () }

/-- C7: when the remote's `current()` reports a version below 2, the sync
is rejected before anything else happens — no chunk download is issued, no
block is submitted — the single event pushed is `{sync: false, msg}` whose
message mentions the UCP version, and the same error propagates to the
caller. -/
theorem old_remote_version_rejected (rVersion rNumber localNumber chunkLen : Int)
    (toArg : Option Int) (fetch : Int → Int → List SBlock)
    (laterError : Option String) (priorEvents : List Ev)
    (priorChunks : List (Int × Int)) (priorSubmitted : List Int)
    (successPushes : List Ev) (hv : rVersion < 2) :
    (syncRunModel rVersion rNumber localNumber chunkLen toArg fetch laterError
        priorEvents priorChunks priorSubmitted successPushes).chunkRequests
      = [] ∧
    (syncRunModel rVersion rNumber localNumber chunkLen toArg fetch laterError
        priorEvents priorChunks priorSubmitted successPushes).submittedNumbers
      = [] ∧
    (syncRunModel rVersion rNumber localNumber chunkLen toArg fetch laterError
        priorEvents priorChunks priorSubmitted successPushes).events
      = [Ev.syncFalse (versionErrorMsg rVersion)] ∧
    (syncRunModel rVersion rNumber localNumber chunkLen toArg fetch laterError
        priorEvents priorChunks priorSubmitted successPushes).result
      = Except.error (versionErrorMsg rVersion) ∧
    (∃ pre post, versionErrorMsg rVersion
      = pre ++ "UCP version is " ++ (toString rVersion ++ post)) := by
  have hmodel : syncRunModel rVersion rNumber localNumber chunkLen toArg fetch
      laterError priorEvents priorChunks priorSubmitted successPushes
      = { events := [Ev.syncFalse (versionErrorMsg rVersion)]
          chunkRequests := []
          submittedNumbers := []
          timerStarted := false
          timerCleared := false
          result := Except.error (versionErrorMsg rVersion) } := by
    unfold syncRunModel
    rw [if_pos hv]
  rw [hmodel]
  refine ⟨rfl, rfl, rfl, rfl,
    "Could not sync with remote host. ", " (Must be >= 2)", ?_⟩
  unfold versionErrorMsg
  rw [show ("Could not sync with remote host. UCP version is " : String)
    = "Could not sync with remote host. " ++ "UCP version is " by decide]
  rw [String.append_assoc, String.append_assoc]

/-- Witness for C7 at remote version 1 (spec scenario 3). -/
theorem old_remote_version_rejected_witness :
    ((1 : Int) < 2) ∧
    ((syncRunModel 1 100 (-1) 500 none (fun _ _ => []) none [] [] []
        []).chunkRequests = [] ∧
      (syncRunModel 1 100 (-1) 500 none (fun _ _ => []) none [] [] []
        []).submittedNumbers = [] ∧
      (syncRunModel 1 100 (-1) 500 none (fun _ _ => []) none [] [] []
        []).events = [Ev.syncFalse (versionErrorMsg 1)] ∧
      (syncRunModel 1 100 (-1) 500 none (fun _ _ => []) none [] [] []
        []).result = Except.error (versionErrorMsg 1) ∧
      (∃ pre post, versionErrorMsg 1
        = pre ++ "UCP version is " ++ (toString (1 : Int) ++ post))) :=
  ⟨by decide, old_remote_version_rejected 1 100 (-1) 500 none (fun _ _ => [])
    none [] [] [] [] (by decide)⟩

/-- C10: the 1-second status interval timer, once started, is cleared
exactly when the sync fails — the catch path calls `clearInterval` before
re-throwing — while on every successful sync the interval is started and
never cleared. -/
theorem interval_cleared_iff_failed (rVersion rNumber localNumber chunkLen : Int)
    (toArg : Option Int) (fetch : Int → Int → List SBlock)
    (laterError : Option String) (priorEvents : List Ev)
    (priorChunks : List (Int × Int)) (priorSubmitted : List Int)
    (successPushes : List Ev) :
    ((syncRunModel rVersion rNumber localNumber chunkLen toArg fetch laterError
        priorEvents priorChunks priorSubmitted successPushes).timerStarted = true →
      ((syncRunModel rVersion rNumber localNumber chunkLen toArg fetch laterError
          priorEvents priorChunks priorSubmitted successPushes).timerCleared = true
        ↔ ∃ e, (syncRunModel rVersion rNumber localNumber chunkLen toArg fetch
            laterError priorEvents priorChunks priorSubmitted
            successPushes).result = Except.error e)) ∧
    ((syncRunModel rVersion rNumber localNumber chunkLen toArg fetch laterError
        priorEvents priorChunks priorSubmitted successPushes).result
        = Except.ok () →
      (syncRunModel rVersion rNumber localNumber chunkLen toArg fetch laterError
          priorEvents priorChunks priorSubmitted successPushes).timerStarted = true ∧
      (syncRunModel rVersion rNumber localNumber chunkLen toArg fetch laterError
          priorEvents priorChunks priorSubmitted successPushes).timerCleared
        = false) := by
  by_cases hv : rVersion < 2
  · have hmodel : syncRunModel rVersion rNumber localNumber chunkLen toArg fetch
        laterError priorEvents priorChunks priorSubmitted successPushes
        = { events := [Ev.syncFalse (versionErrorMsg rVersion)]
            chunkRequests := []
            submittedNumbers := []
            timerStarted := false
            timerCleared := false
            result := Except.error (versionErrorMsg rVersion) } := by
      unfold syncRunModel
      rw [if_pos hv]
    rw [hmodel]
    exact ⟨fun h => absurd h (by simp), fun h => absurd h (by simp)⟩
  · match laterError with
    | some e =>
      have hmodel : syncRunModel rVersion rNumber localNumber chunkLen toArg fetch
          (some e) priorEvents priorChunks priorSubmitted successPushes
          = { events := priorEvents ++ [Ev.syncFalse e]
              chunkRequests := priorChunks
              submittedNumbers := priorSubmitted
              timerStarted := true
              timerCleared := true
              result := Except.error e } := by
        unfold syncRunModel
        rw [if_neg hv]
      rw [hmodel]
      exact ⟨fun _ => ⟨fun _ => ⟨e, rfl⟩, fun _ => rfl⟩,
        fun h => absurd h (by simp)⟩
    | none =>
      have hmodel : syncRunModel rVersion rNumber localNumber chunkLen toArg fetch
          none priorEvents priorChunks priorSubmitted successPushes
          = { events := successPushes ++ [Ev.syncTrue]
              chunkRequests :=
                chunks localNumber (effectiveTarget toArg rNumber) chunkLen
              submittedNumbers :=
                (cautiousSubmissions fetch localNumber
                  (effectiveTarget toArg rNumber) chunkLen).map SBlock.number
              timerStarted := true
              timerCleared := false
              result := Except.ok () } := by
        unfold syncRunModel
        rw [if_neg hv]
      rw [hmodel]
      refine ⟨fun _ => ⟨fun h => absurd h (by simp), ?_⟩, fun _ => ⟨rfl, rfl⟩⟩
      rintro ⟨e, he⟩
      exact absurd he (by simp)

/-- Witness for C10: a successful sync (left) keeps the timer running; a
sync failing after the timer started (right) clears it. -/
theorem interval_cleared_iff_failed_witness :
    ((syncRunModel 2 10 (-1) 500 none (fun _ _ => []) none [] [] []
        []).result = Except.ok () ∧
      (syncRunModel 2 10 (-1) 500 none (fun _ _ => []) none [] [] []
          []).timerStarted = true ∧
      (syncRunModel 2 10 (-1) 500 none (fun _ _ => []) none [] [] []
          []).timerCleared = false) ∧
    ((syncRunModel 2 10 (-1) 500 none (fun _ _ => []) (some "boom") [] [] []
        []).timerStarted = true ∧
      ((syncRunModel 2 10 (-1) 500 none (fun _ _ => []) (some "boom") [] [] []
          []).timerCleared = true
        ↔ ∃ e, (syncRunModel 2 10 (-1) 500 none (fun _ _ => [])
            (some "boom") [] [] [] []).result = Except.error e)) :=
  ⟨⟨rfl,
    (interval_cleared_iff_failed 2 10 (-1) 500 none (fun _ _ => []) none
      [] [] [] []).2 rfl⟩,
    ⟨rfl,
      (interval_cleared_iff_failed 2 10 (-1) 500 none (fun _ _ => [])
        (some "boom") [] [] [] []).1 rfl⟩⟩

end UcoinSync
